import Mathlib

/-!
Shallow embedding of the `Voting` smart contract (src/contract/Voting.sol).

The contract state is: an `admin` address recorded at construction, a
`hasVoted : mapping(address => bool)`, a `votes : mapping(string => uint256)`
and an immutable `candidates : string[]` list.  Addresses are modelled as
`Nat`; the boolean mapping is modelled by the finite list of addresses whose
flag is true (every mapping entry defaults to false); the tally mapping is
modelled as a total function `String → Nat` updated pointwise (every entry
defaults to zero).  The keccak256 comparison in `validCandidate` is modelled
as byte-for-byte string equality.  A reverted call leaves the state
unchanged, so `castVote` returns the pre-state together with the error; the
EVM's transactional all-or-nothing execution makes each call one atomic step.
-/

/-- The two `require` failure messages of `Voting.vote`:
"Already voted!" and "Invalid candidate!". -/
inductive VoteError where
  | AlreadyVoted
  | InvalidCandidate
  deriving DecidableEq, Repr

/-- Pointwise update of a tally mapping: `setVote f c n` is the mapping that
sends `c` to `n` and every other name to its value under `f`. -/
def setVote (f : String → Nat) (c : String) (n : Nat) : String → Nat :=
  fun x => if x = c then n else f x

/-- Contract storage of `Voting`, field for field:
`admin`, `hasVoted` (the list of addresses whose flag is true),
`votes` (the tally mapping, default zero) and `candidates`. -/
structure Voting where
  admin : Nat
  hasVoted : List Nat
  votes : String → Nat
  candidates : List String

/-- The constructor: records the caller as `admin` and stores the candidate
list verbatim; no mapping entry is written, so every tally is zero and no
voter has voted. -/
def Voting.constructor (sender : Nat) (cands : List String) : Voting :=
  { admin := sender, hasVoted := [], votes := fun _ => 0, candidates := cands }

/-- The public getter of the `hasVoted` mapping (defaults to false). -/
def Voting.getHasVoted (s : Voting) (v : Nat) : Bool :=
  s.hasVoted.contains v

/-- `validCandidate`: scans `candidates` for an entry whose bytes hash equal
to the argument's, i.e. an exact string match. -/
def Voting.validCandidate (s : Voting) (name : String) : Bool :=
  s.candidates.any (fun c => c == name)

/-- `vote`: requires the sender's flag to be false (else "Already voted!"),
requires `validCandidate` (else "Invalid candidate!"), then increments
`votes[candidate]` and sets the sender's flag. -/
def Voting.vote (s : Voting) (sender : Nat) (candidate : String) :
    Except VoteError Voting :=
  if s.getHasVoted sender then .error .AlreadyVoted
  else if s.validCandidate candidate then
    .ok { s with
          votes := setVote s.votes candidate (s.votes candidate + 1),
          hasVoted := sender :: s.hasVoted }
  else .error .InvalidCandidate

/-- A `vote` transaction: on success the new state, on revert the unchanged
pre-state together with the error. -/
def Voting.castVote (s : Voting) (sender : Nat) (candidate : String) :
    Voting × Option VoteError :=
  match s.vote sender candidate with
  | .ok t => (t, none)
  | .error e => (s, some e)

/-- `getVotes`: pure read of the tally mapping. -/
def Voting.getVotes (s : Voting) (candidate : String) : Nat :=
  s.votes candidate

/-- Run a sequence of `vote` transactions, each given as (sender, candidate);
rejected transactions leave the state unchanged. -/
def Voting.run (s : Voting) : List (Nat × String) → Voting
  | [] => s
  | (v, c) :: rest => ((s.castVote v c).1).run rest

/-- Number of accepted transactions in a call sequence starting from `s`. -/
def Voting.successCount (s : Voting) : List (Nat × String) → Nat
  | [] => 0
  | (v, c) :: rest =>
    (if (s.castVote v c).2 = none then 1 else 0)
      + ((s.castVote v c).1).successCount rest

/-- Number of accepted transactions voting for the name `c` in a call
sequence starting from `s`. -/
def Voting.acceptedFor (s : Voting) (c : String) : List (Nat × String) → Nat
  | [] => 0
  | (v, d) :: rest =>
    (if (s.castVote v d).2 = none then (if d = c then 1 else 0) else 0)
      + ((s.castVote v d).1).acceptedFor c rest

/-- Replacing the `admin` field only. -/
def setAdmin (s : Voting) (a : Nat) : Voting := { s with admin := a }

lemma validCandidate_iff (s : Voting) (c : String) :
    s.validCandidate c = true ↔ c ∈ s.candidates := by
  simp [Voting.validCandidate, List.any_eq_true]

lemma getHasVoted_iff (s : Voting) (v : Nat) :
    s.getHasVoted v = true ↔ v ∈ s.hasVoted := by
  simp [Voting.getHasVoted, List.contains]

lemma castVote_already (s : Voting) (v : Nat) (c : String)
    (h : s.getHasVoted v = true) :
    s.castVote v c = (s, some VoteError.AlreadyVoted) := by
  simp [Voting.castVote, Voting.vote, h]

lemma castVote_invalid (s : Voting) (v : Nat) (c : String)
    (h1 : s.getHasVoted v = false) (h2 : s.validCandidate c = false) :
    s.castVote v c = (s, some VoteError.InvalidCandidate) := by
  simp [Voting.castVote, Voting.vote, h1, h2]

lemma castVote_ok (s : Voting) (v : Nat) (c : String)
    (h1 : s.getHasVoted v = false) (h2 : s.validCandidate c = true) :
    s.castVote v c =
      ({ s with
         votes := setVote s.votes c (s.votes c + 1),
         hasVoted := v :: s.hasVoted }, none) := by
  simp [Voting.castVote, Voting.vote, h1, h2]

lemma map_setVote_of_not_mem (f : String → Nat) (c : String) (n : Nat)
    (l : List String) (hc : c ∉ l) :
    l.map (setVote f c n) = l.map f := by
  induction l with
  | nil => rfl
  | cons a t ih =>
    have hac : a ≠ c := by
      intro h
      exact hc (h ▸ List.mem_cons_self a t)
    simp only [List.map_cons, ih (fun h => hc (List.mem_cons_of_mem a h))]
    simp [setVote, hac]

lemma sum_map_setVote (f : String → Nat) (c : String) (l : List String)
    (hl : l.Nodup) (hc : c ∈ l) :
    (l.map (setVote f c (f c + 1))).sum = (l.map f).sum + 1 := by
  induction l with
  | nil => cases hc
  | cons a t ih =>
    rcases List.nodup_cons.mp hl with ⟨ha, ht⟩
    rcases List.mem_cons.mp hc with h | h
    · have hct : c ∉ t := h ▸ ha
      have hsv : setVote f c (f c + 1) a = f c + 1 := by simp [setVote, h]
      rw [List.map_cons, List.map_cons, map_setVote_of_not_mem f c (f c + 1) t hct,
        List.sum_cons, List.sum_cons, hsv, h]
      omega
    · have hac : a ≠ c := fun he => ha (he ▸ h)
      rw [List.map_cons, List.map_cons, List.sum_cons, List.sum_cons, ih ht h]
      simp [setVote, hac]
      omega

lemma castVote_candidates (s : Voting) (v : Nat) (c : String) :
    ((s.castVote v c).1).candidates = s.candidates := by
  cases h1 : s.getHasVoted v with
  | true => rw [castVote_already s v c h1]
  | false =>
    cases h2 : s.validCandidate c with
    | true => rw [castVote_ok s v c h1 h2]
    | false => rw [castVote_invalid s v c h1 h2]

lemma run_candidates (s : Voting) (calls : List (Nat × String)) :
    (s.run calls).candidates = s.candidates := by
  induction calls generalizing s with
  | nil => rfl
  | cons p rest ih =>
    obtain ⟨v, c⟩ := p
    rw [Voting.run, ih, castVote_candidates]

/-- The inductive invariant of the contract state: the true-flag list has no
duplicates, names outside the candidate list have tally zero, and the sum of
the tallies over the (deduplicated) candidate names equals the number of
voters whose flag is true. -/
def LedgerInv (s : Voting) : Prop :=
  s.hasVoted.Nodup ∧
  (∀ c, c ∉ s.candidates → s.votes c = 0) ∧
  (s.candidates.dedup.map s.votes).sum = s.hasVoted.length

lemma inv_constructor (a : Nat) (cands : List String) :
    LedgerInv (Voting.constructor a cands) := by
  refine ⟨List.nodup_nil, fun c _ => rfl, ?_⟩
  simp [Voting.constructor]

lemma inv_castVote (s : Voting) (v : Nat) (c : String) (h : LedgerInv s) :
    LedgerInv ((s.castVote v c).1) := by
  cases h1 : s.getHasVoted v with
  | true => rw [castVote_already s v c h1]; exact h
  | false =>
    cases h2 : s.validCandidate c with
    | false => rw [castVote_invalid s v c h1 h2]; exact h
    | true =>
      rw [castVote_ok s v c h1 h2]
      obtain ⟨hnd, hz, hsum⟩ := h
      have hcmem : c ∈ s.candidates := (validCandidate_iff s c).mp h2
      refine ⟨?_, ?_, ?_⟩
      · have hv : v ∉ s.hasVoted := by
          intro hm
          rw [← getHasVoted_iff, h1] at hm
          cases hm
        exact List.nodup_cons.mpr ⟨hv, hnd⟩
      · intro d hd
        have hdc : d ≠ c := fun he => hd (he ▸ hcmem)
        simpa [setVote, hdc] using hz d hd
      · have hs := sum_map_setVote s.votes c s.candidates.dedup
          (List.nodup_dedup s.candidates) (List.mem_dedup.mpr hcmem)
        simp [hs, hsum]

lemma inv_run (s : Voting) (calls : List (Nat × String)) (h : LedgerInv s) :
    LedgerInv (s.run calls) := by
  induction calls generalizing s with
  | nil => exact h
  | cons p rest ih =>
    obtain ⟨v, c⟩ := p
    rw [Voting.run]
    exact ih _ (inv_castVote s v c h)

lemma run_hasVoted_length (s : Voting) (calls : List (Nat × String)) :
    ((s.run calls).hasVoted).length = s.hasVoted.length + s.successCount calls := by
  induction calls generalizing s with
  | nil => simp [Voting.run, Voting.successCount]
  | cons p rest ih =>
    obtain ⟨v, c⟩ := p
    rw [Voting.run, Voting.successCount, ih]
    cases h1 : s.getHasVoted v with
    | true => rw [castVote_already s v c h1]; simp
    | false =>
      cases h2 : s.validCandidate c with
      | false => rw [castVote_invalid s v c h1 h2]; simp
      | true => rw [castVote_ok s v c h1 h2]; simp; omega

lemma run_votes (s : Voting) (c : String) (calls : List (Nat × String)) :
    (s.run calls).votes c = s.votes c + s.acceptedFor c calls := by
  induction calls generalizing s with
  | nil => simp [Voting.run, Voting.acceptedFor]
  | cons p rest ih =>
    obtain ⟨v, d⟩ := p
    rw [Voting.run, Voting.acceptedFor, ih]
    cases h1 : s.getHasVoted v with
    | true => rw [castVote_already s v d h1]; simp
    | false =>
      cases h2 : s.validCandidate d with
      | false => rw [castVote_invalid s v d h1 h2]; simp
      | true =>
        rw [castVote_ok s v d h1 h2]
        by_cases hdc : d = c
        · subst hdc
          simp [setVote]
          omega
        · simp [setVote, hdc]
          intro he
          exact absurd he.symm hdc

lemma run_hasVoted_nil_cands (a : Nat) (calls : List (Nat × String)) :
    (Voting.constructor a []).run calls = Voting.constructor a [] := by
  induction calls with
  | nil => rfl
  | cons p rest ih =>
    obtain ⟨v, c⟩ := p
    rw [Voting.run, castVote_invalid (Voting.constructor a []) v c rfl rfl]
    exact ih

/-- C1: from any state in which voter `v` has not voted and `c` is a member
of the candidate list, the `vote` transaction succeeds and, in the single
atomic post-state it produces, the tally of `c` is the pre-state tally plus
one and `v`'s flag is true. -/
theorem C1_vote_success (s : Voting) (v : Nat) (c : String)
    (h1 : s.getHasVoted v = false) (h2 : c ∈ s.candidates) :
    (s.castVote v c).2 = none ∧
    ((s.castVote v c).1).getVotes c = s.getVotes c + 1 ∧
    ((s.castVote v c).1).getHasVoted v = true := by
  have h2b : s.validCandidate c = true := (validCandidate_iff s c).mpr h2
  rw [castVote_ok s v c h1 h2b]
  refine ⟨rfl, ?_, ?_⟩
  · simp [Voting.getVotes, setVote]
  · exact (getHasVoted_iff _ v).mpr (List.mem_cons_self v s.hasVoted)

theorem C1_vote_success_witness :
    (Voting.constructor 0 ["Alice", "Bob"]).getHasVoted 7 = false ∧
    "Bob" ∈ (Voting.constructor 0 ["Alice", "Bob"]).candidates ∧
    ((((Voting.constructor 0 ["Alice", "Bob"]).castVote 7 "Bob").2 = none ∧
      ((((Voting.constructor 0 ["Alice", "Bob"]).castVote 7 "Bob").1).getVotes "Bob"
        = (Voting.constructor 0 ["Alice", "Bob"]).getVotes "Bob" + 1) ∧
      (((Voting.constructor 0 ["Alice", "Bob"]).castVote 7 "Bob").1).getHasVoted 7 = true)) :=
  ⟨by decide, by decide,
    C1_vote_success (Voting.constructor 0 ["Alice", "Bob"]) 7 "Bob" (by decide) (by decide)⟩

/-- C2: in every state reached from construction by any sequence of `vote`
transactions (accepted or rejected), the sum of `getVotes` over the distinct
candidate names equals the number of voters whose flag is true; the flag list
holds no duplicates, so that number is the count of distinct voters, and it
equals the number of accepted transactions in the sequence. -/
theorem C2_tally_sum (a : Nat) (cands : List String) (calls : List (Nat × String)) :
    (cands.dedup.map ((Voting.constructor a cands).run calls).getVotes).sum
      = (((Voting.constructor a cands).run calls).hasVoted).length ∧
    (((Voting.constructor a cands).run calls).hasVoted).Nodup ∧
    (((Voting.constructor a cands).run calls).hasVoted).length
      = (Voting.constructor a cands).successCount calls := by
  have hinv : LedgerInv ((Voting.constructor a cands).run calls) :=
    inv_run _ calls (inv_constructor a cands)
  have hcand : ((Voting.constructor a cands).run calls).candidates = cands :=
    run_candidates _ calls
  obtain ⟨hnd, _, hsum⟩ := hinv
  refine ⟨?_, hnd, ?_⟩
  · rw [hcand] at hsum
    exact hsum
  · have hlen := run_hasVoted_length (Voting.constructor a cands) calls
    simpa [Voting.constructor] using hlen

/-- C3: a voter whose flag is true gets `AlreadyVoted` from every `vote`
transaction, for every candidate name, with the state unchanged; moreover no
transaction by anyone ever resets the flag to false. -/
theorem C3_already_voted (s : Voting) (v : Nat) (c : String)
    (h : s.getHasVoted v = true) :
    s.castVote v c = (s, some VoteError.AlreadyVoted) ∧
    ∀ w d, ((s.castVote w d).1).getHasVoted v = true := by
  refine ⟨castVote_already s v c h, ?_⟩
  intro w d
  cases h1 : s.getHasVoted w with
  | true => rw [castVote_already s w d h1]; exact h
  | false =>
    cases h2 : s.validCandidate d with
    | false => rw [castVote_invalid s w d h1 h2]; exact h
    | true =>
      rw [castVote_ok s w d h1 h2]
      have hv : v ∈ s.hasVoted := (getHasVoted_iff s v).mp h
      exact (getHasVoted_iff _ v).mpr (List.mem_cons_of_mem w hv)

theorem C3_already_voted_witness :
    (Voting.mk 0 [1] (fun _ => 0) ["Alice"]).getHasVoted 1 = true ∧
    ((Voting.mk 0 [1] (fun _ => 0) ["Alice"]).castVote 1 "Alice"
        = (Voting.mk 0 [1] (fun _ => 0) ["Alice"], some VoteError.AlreadyVoted) ∧
      ∀ w d, (((Voting.mk 0 [1] (fun _ => 0) ["Alice"]).castVote w d).1).getHasVoted 1 = true) :=
  ⟨by decide, C3_already_voted (Voting.mk 0 [1] (fun _ => 0) ["Alice"]) 1 "Alice" (by decide)⟩

/-- C4: a voter whose flag is false voting for a name outside the candidate
list gets `InvalidCandidate`, and the post-state is exactly the pre-state. -/
theorem C4_invalid_candidate (s : Voting) (v : Nat) (c : String)
    (h1 : s.getHasVoted v = false) (h2 : c ∉ s.candidates) :
    s.castVote v c = (s, some VoteError.InvalidCandidate) := by
  have h2b : s.validCandidate c = false := by
    cases hb : s.validCandidate c with
    | false => rfl
    | true => exact absurd ((validCandidate_iff s c).mp hb) h2
  exact castVote_invalid s v c h1 h2b

theorem C4_invalid_candidate_witness :
    (Voting.constructor 0 ["Alice"]).getHasVoted 2 = false ∧
    "Dave" ∉ (Voting.constructor 0 ["Alice"]).candidates ∧
    (Voting.constructor 0 ["Alice"]).castVote 2 "Dave"
      = (Voting.constructor 0 ["Alice"], some VoteError.InvalidCandidate) :=
  ⟨by decide, by decide,
    C4_invalid_candidate (Voting.constructor 0 ["Alice"]) 2 "Dave" (by decide) (by decide)⟩

/-- C5: `getVotes` is a total pure read of the tally mapping — it returns
`votes[c]` for every name `c` in every state, and immediately after
construction that value is zero for every name, constructed candidate or
not, so a zero tally and an unknown name are indistinguishable. -/
theorem C5_getVotes_read (a : Nat) (cands : List String) (c : String) (s : Voting) :
    s.getVotes c = s.votes c ∧ (Voting.constructor a cands).getVotes c = 0 :=
  ⟨rfl, rfl⟩

/-- C6 counterexample: with the duplicate-containing candidate list
["Alice", "Alice"], two accepted votes for "Alice" read back as the full
count 2, and no call sequence whatsoever can make `getVotes "Alice"` fall
below the number of accepted votes for "Alice" — the tally mapping is keyed
by the name string, so duplicate list entries never split a count. -/
theorem C6_no_split_counterexample :
    (((Voting.constructor 0 ["Alice", "Alice"]).run
        [(1, "Alice"), (2, "Alice")]).getVotes "Alice" = 2) ∧
    ¬ ∃ calls : List (Nat × String),
        ((Voting.constructor 0 ["Alice", "Alice"]).run calls).getVotes "Alice"
          < (Voting.constructor 0 ["Alice", "Alice"]).acceptedFor "Alice" calls := by
  constructor
  · decide
  · rintro ⟨calls, hlt⟩
    have hrv := run_votes (Voting.constructor 0 ["Alice", "Alice"]) "Alice" calls
    have hz : (Voting.constructor 0 ["Alice", "Alice"]).votes "Alice" = 0 := rfl
    rw [hz, Nat.zero_add] at hrv
    have : ((Voting.constructor 0 ["Alice", "Alice"]).run calls).getVotes "Alice"
        = (Voting.constructor 0 ["Alice", "Alice"]).acceptedFor "Alice" calls := hrv
    omega

/-- C6 amended: for every constructed candidate list — duplicate-containing
or not — and every call sequence, `getVotes c` in the final state equals the
total number of accepted votes cast for `c`; duplicate entries are never
split across, because the tally is keyed by the candidate name itself. -/
theorem C6_no_split_amended (a : Nat) (cands : List String) (c : String)
    (calls : List (Nat × String)) :
    ((Voting.constructor a cands).run calls).getVotes c
      = (Voting.constructor a cands).acceptedFor c calls := by
  have hrv := run_votes (Voting.constructor a cands) c calls
  have hz : (Voting.constructor a cands).votes c = 0 := rfl
  rw [hz, Nat.zero_add] at hrv
  exact hrv

/-- C7: construction with the empty candidate list is accepted (the
constructor is total and installs the all-zero state), every reachable state
equals that initial state, and every `vote` transaction on it is rejected
with `InvalidCandidate`, for every voter and every name. -/
theorem C7_empty_candidates (a : Nat) (calls : List (Nat × String))
    (v : Nat) (c : String) :
    (Voting.constructor a []).run calls = Voting.constructor a [] ∧
    ((Voting.constructor a []).run calls).castVote v c
      = (Voting.constructor a [], some VoteError.InvalidCandidate) := by
  refine ⟨run_hasVoted_nil_cands a calls, ?_⟩
  rw [run_hasVoted_nil_cands a calls]
  exact castVote_invalid (Voting.constructor a []) v c rfl rfl

/-- C8: the `admin` field gates nothing — replacing it by any value leaves
the result of every `vote` transaction, every `getVotes` read and every
`hasVoted` read unchanged, and the transaction changes the rest of the state
exactly as before. -/
theorem C8_admin_unused (s : Voting) (a v w : Nat) (c d : String) :
    ((setAdmin s a).castVote v c).2 = (s.castVote v c).2 ∧
    ((setAdmin s a).castVote v c).1 = setAdmin ((s.castVote v c).1) a ∧
    (setAdmin s a).getVotes d = s.getVotes d ∧
    (setAdmin s a).getHasVoted w = s.getHasVoted w := by
  have hg : (setAdmin s a).getHasVoted v = s.getHasVoted v := rfl
  have hvc : (setAdmin s a).validCandidate c = s.validCandidate c := rfl
  cases h1 : s.getHasVoted v with
  | true =>
    rw [castVote_already s v c h1, castVote_already (setAdmin s a) v c (hg.trans h1)]
    exact ⟨rfl, rfl, rfl, rfl⟩
  | false =>
    cases h2 : s.validCandidate c with
    | false =>
      rw [castVote_invalid s v c h1 h2,
        castVote_invalid (setAdmin s a) v c (hg.trans h1) (hvc.trans h2)]
      exact ⟨rfl, rfl, rfl, rfl⟩
    | true =>
      rw [castVote_ok s v c h1 h2,
        castVote_ok (setAdmin s a) v c (hg.trans h1) (hvc.trans h2)]
      exact ⟨rfl, rfl, rfl, rfl⟩

/-- C9: frame of a successful `vote` transaction — only the voted name's
tally and the sender's flag change; every other name's tally, every other
voter's flag, the candidate list and the `admin` field are untouched. -/
theorem C9_success_frame (s : Voting) (v : Nat) (c : String)
    (h : (s.castVote v c).2 = none) :
    (∀ d, d ≠ c → ((s.castVote v c).1).votes d = s.votes d) ∧
    (∀ w, w ≠ v → ((s.castVote v c).1).getHasVoted w = s.getHasVoted w) ∧
    ((s.castVote v c).1).candidates = s.candidates ∧
    ((s.castVote v c).1).admin = s.admin := by
  cases h1 : s.getHasVoted v with
  | true =>
    rw [castVote_already s v c h1] at h
    cases h
  | false =>
    cases h2 : s.validCandidate c with
    | false =>
      rw [castVote_invalid s v c h1 h2] at h
      cases h
    | true =>
      rw [castVote_ok s v c h1 h2]
      refine ⟨?_, ?_, rfl, rfl⟩
      · intro d hd
        simp [setVote, hd]
      · intro w hw
        have hb : (w == v) = false := beq_eq_false_iff_ne.mpr hw
        simp [Voting.getHasVoted, List.contains, List.elem_cons, hb]
        intro he
        exact absurd he hw

theorem C9_success_frame_witness :
    ((Voting.constructor 0 ["Alice", "Bob"]).castVote 5 "Alice").2 = none ∧
    ((∀ d, d ≠ "Alice" →
        (((Voting.constructor 0 ["Alice", "Bob"]).castVote 5 "Alice").1).votes d
          = (Voting.constructor 0 ["Alice", "Bob"]).votes d) ∧
      (∀ w, w ≠ 5 →
        (((Voting.constructor 0 ["Alice", "Bob"]).castVote 5 "Alice").1).getHasVoted w
          = (Voting.constructor 0 ["Alice", "Bob"]).getHasVoted w) ∧
      (((Voting.constructor 0 ["Alice", "Bob"]).castVote 5 "Alice").1).candidates
        = (Voting.constructor 0 ["Alice", "Bob"]).candidates ∧
      (((Voting.constructor 0 ["Alice", "Bob"]).castVote 5 "Alice").1).admin
        = (Voting.constructor 0 ["Alice", "Bob"]).admin) :=
  ⟨by decide,
    C9_success_frame (Voting.constructor 0 ["Alice", "Bob"]) 5 "Alice" (by decide)⟩

/-- C10: in every state reachable from construction, a name outside the
constructed candidate list has tally zero, so `getVotes` reads back nonzero
only for constructed candidate names. -/
theorem C10_outside_zero (a : Nat) (cands : List String)
    (calls : List (Nat × String)) (c : String) (h : c ∉ cands) :
    ((Voting.constructor a cands).run calls).getVotes c = 0 := by
  have hinv : LedgerInv ((Voting.constructor a cands).run calls) :=
    inv_run _ calls (inv_constructor a cands)
  have hcand : ((Voting.constructor a cands).run calls).candidates = cands :=
    run_candidates _ calls
  exact hinv.2.1 c (by rw [hcand]; exact h)

theorem C10_outside_zero_witness :
    "Bob" ∉ ["Alice"] ∧
    ((Voting.constructor 0 ["Alice"]).run [(1, "Alice"), (2, "Bob")]).getVotes "Bob" = 0 :=
  ⟨by decide,
    C10_outside_zero 0 ["Alice"] [(1, "Alice"), (2, "Bob")] "Bob" (by decide)⟩
